import Mathlib

/-!
Verification development for `cosmoslib/mcmc.py`: a shallow embedding of the
`MCMC` orchestration class (parameter bookkeeping, prior evaluation,
likelihood aggregation, run control and best-fit extraction), together with
theorems settling the specified properties.

Modelling conventions:
* Python floats are modelled as rationals (`ℚ`); `-np.inf` is the
  distinguished constructor `LogProb.neginf`.
* Python dicts (insertion ordered, as in Python 3.7+) are modelled as
  association lists: assigning to an existing key updates the value in place,
  assigning to a fresh key appends at the end.
* Operations that can raise a Python exception return `Option`/`Except`;
  `none`/`.error` marks the raise.
* The external ensemble-sampling library (emcee) and the cosmology model are
  opaque to this code; their behaviour enters as explicit parameters
  (`RunExt`, `Cosmology.fullRun`, noise streams).
-/

namespace CosmoMCMC

/-- A Python dict with string keys: an insertion-ordered association list. -/
abbrev Dict (α : Type) := List (String × α)

namespace Dict

/-- Key membership test (`k in d`). -/
def contains {α : Type} (d : Dict α) (k : String) : Bool :=
  d.any (fun p => p.1 == k)

/-- Dict assignment `d[k] = v`: update in place when the key exists,
append otherwise (Python dicts preserve insertion order). -/
def set {α : Type} (d : Dict α) (k : String) (v : α) : Dict α :=
  if d.any (fun p => p.1 == k) then
    d.map (fun p => if p.1 == k then (k, v) else p)
  else
    d ++ [(k, v)]

/-- Dict lookup `d[k]`, `none` when the key is absent (Python `KeyError`). -/
def get? {α : Type} (d : Dict α) (k : String) : Option α :=
  (d.find? (fun p => p.1 == k)).map Prod.snd

/-- The key list `[*d]`, in insertion order. -/
def keys {α : Type} (d : Dict α) : List String :=
  d.map Prod.fst

end Dict

/-- A value appearing in a parameter configuration mapping: a scalar, a
Python `list` of numbers, or a Python `tuple` of numbers. -/
inductive PyVal : Type
  | num (x : ℚ)
  | list (xs : List ℚ)
  | tuple (xs : List ℚ)
deriving DecidableEq, Repr

/-- A log-probability value: either finite or `-np.inf`. -/
inductive LogProb : Type
  | neginf
  | fin (x : ℚ)
deriving DecidableEq, Repr

/-- The Python exceptions distinguished by this embedding.
`lookupError` stands for `KeyError`/`IndexError`/`AttributeError` raised by a
failed lookup; `unboundLocalError` for reading a local variable that was
never assigned. -/
inductive PyErr : Type
  | unboundLocalError
  | lookupError
deriving DecidableEq, Repr

/-- The data this code reads back from an emcee sampler object:
`sampler.flatlnprobability` and `sampler.flatchain`. -/
structure SamplerData : Type where
  flatlnprobability : List ℚ
  flatchain : List (List ℚ)
deriving DecidableEq, Repr

/-- The external cosmology object (spec §6 contract): it owns a parameter
mapping and a full evaluation producing a theory of type `T` or raising. -/
structure Cosmology (T : Type) : Type where
  params : Dict ℚ
  fullRun : Dict ℚ → Except Unit T

/-- Modelled from the spec: the external cosmology contract
`set_model_params(mapping)` (spec §6, "accepting a parameter mapping") is not
part of this repository's `src/`; it is modelled as merging the mapping into
the model's stored parameters. -/
def Cosmology.set_model_params {T : Type} (c : Cosmology T) (d : Dict ℚ) :
    Cosmology T :=
  { c with params := d.foldl (fun acc kv => acc.set kv.1 kv.2) c.params }

/-- The state of an `MCMC` object (its instance attributes). -/
structure MCMCState (T : Type) : Type where
  n_walkers : ℤ
  initial_delta : ℚ
  sampler : Option SamplerData
  cosmology : Option (Cosmology T)
  base_params : Dict ℚ
  fit_params : Dict (List ℚ)
  fit_keys : List String
  backend_file : Option String
  likelihoods : List (T → ℚ)

/-- `MCMC.__init__(n_walkers=2, initial_delta=0.01, backend_file=None)`. -/
def MCMC.init (T : Type) (n_walkers : ℤ := 2) (initial_delta : ℚ := 1/100)
    (backend_file : Option String := none) : MCMCState T :=
  { n_walkers := n_walkers
    initial_delta := initial_delta
    sampler := none
    cosmology := none
    base_params := []
    fit_params := []
    fit_keys := []
    backend_file := backend_file
    likelihoods := [] }

/-- The body of the `for k in params` loop of `set_params`: a value of exact
type `list` goes to `fit_params` as is, a `tuple` goes to `fit_params`
converted by `list(...)`, anything else goes to `base_params`. -/
def applyParams : List (String × PyVal) → Dict ℚ × Dict (List ℚ) →
    Dict ℚ × Dict (List ℚ)
  | [], st => st
  | (k, PyVal.list xs) :: rest, (bp, fp) => applyParams rest (bp, fp.set k xs)
  | (k, PyVal.tuple xs) :: rest, (bp, fp) => applyParams rest (bp, fp.set k xs)
  | (k, PyVal.num x) :: rest, (bp, fp) => applyParams rest (bp.set k x, fp)

/-- `MCMC.set_params(params)`: classify every entry, rebuild `fit_keys` from
`fit_params`, and push the base parameters into the cosmology when one is
set. -/
def set_params {T : Type} (s : MCMCState T) (params : Dict PyVal) :
    MCMCState T :=
  let st := applyParams params (s.base_params, s.fit_params)
  { s with
    base_params := st.1
    fit_params := st.2
    fit_keys := Dict.keys st.2
    cosmology :=
      match s.cosmology with
      | some c => some (c.set_model_params st.1)
      | none => none }

/-- The `for i, k in enumerate(self.fit_keys)` loop of `lnprior`, with
`theta[i]` modelled by consuming `theta` in step with the keys.  For each key
it reads `fit_params[k][0]`, `[1]` and `[2]` (raising when absent or too
short), then compares `theta[i]` with the bounds. -/
def lnpriorAux (fp : Dict (List ℚ)) : List String → List ℚ → Option LogProb
  | [], _ => some (LogProb.fin 0)
  | k :: ks, th =>
    match Dict.get? fp k with
    | none => none
    | some v =>
      match v.get? 0, v.get? 1, v.get? 2 with
      | some lower, some _fid, some upper =>
        match th with
        | [] => none
        | p :: th' =>
          if p < lower then some LogProb.neginf
          else if upper < p then some LogProb.neginf
          else lnpriorAux fp ks th'
      | _, _, _ => none

/-- `MCMC.lnprior(theta)`: flat prior inside the registered bounds,
`-np.inf` outside. -/
def lnprior {T : Type} (s : MCMCState T) (theta : List ℚ) : Option LogProb :=
  lnpriorAux s.fit_params s.fit_keys theta

/-- `MCMC.add_likelihood(likelihood)`. -/
def add_likelihood {T : Type} (s : MCMCState T) (f : T → ℚ) : MCMCState T :=
  { s with likelihoods := s.likelihoods ++ [f] }

/-- `MCMC.set_cosmology(cm)`: store the cosmology and push the base
parameters into it. -/
def set_cosmology {T : Type} (s : MCMCState T) (c : Cosmology T) :
    MCMCState T :=
  { s with cosmology := some (c.set_model_params s.base_params) }

/-- `MCMC.reset_params()`. -/
def reset_params {T : Type} (s : MCMCState T) : MCMCState T :=
  { s with base_params := [], fit_params := [], fit_keys := [] }

/-- A loop `for i, k in enumerate(keys): d[k] = vals[i]` building a dict from
scratch, with `vals[i]` modelled by consuming `vals` in step with the keys
(`none` = `IndexError` when `vals` runs out first).  Used both by
`generate_theory` (for `model_params`) and by `get_bf_params`. -/
def dictFromKeysVals : List String → List ℚ → Dict ℚ → Option (Dict ℚ)
  | [], _, acc => some acc
  | _ :: _, [], _ => none
  | k :: ks, v :: vs, acc => dictFromKeysVals ks vs (acc.set k v)

/-- The result pair of `generate_theory`: `(None, True)` on a caught model
exception is encoded as `errFlag`, and `(results, False)` as `theory results`. -/
inductive GTRes (T : Type) : Type
  | errFlag
  | theory (t : T)

/-- `MCMC.generate_theory(theta)`: build `model_params` from the fit keys and
`theta`, push them into the cosmology, and run the model, catching any
exception of the model run (and only those) into the sentinel error flag.
The returned state carries the mutated cosmology. -/
def generate_theory {T : Type} (s : MCMCState T) (theta : List ℚ) :
    Except PyErr (MCMCState T × GTRes T) :=
  match dictFromKeysVals s.fit_keys theta [] with
  | none => Except.error PyErr.lookupError
  | some mp =>
    match s.cosmology with
    | none => Except.error PyErr.lookupError
    | some c =>
      let c' := c.set_model_params mp
      let s' := { s with cosmology := some c' }
      match c'.fullRun c'.params with
      | Except.error _ => Except.ok (s', GTRes.errFlag)
      | Except.ok t => Except.ok (s', GTRes.theory t)

/-- The `for like_func in self.likelihoods: like += like_func(ps_theory)`
loop of `lnprob`.  The accumulator starts out unassigned (`none`); adding to
it while unassigned is Python's `UnboundLocalError`, which leaves it `none`. -/
def likeLoop {T : Type} : List (T → ℚ) → T → Option ℚ → Option ℚ
  | [], _, acc => acc
  | f :: rest, t, acc =>
    match acc with
    | none => none
    | some a => likeLoop rest t (some (a + f t))

/-- `MCMC.lnprob(theta)`: reject on a model error, reject on an infinite
prior, otherwise accumulate the likelihoods into the never-assigned local
`like` (so a `none` accumulator after the loop — whether the loop read it or
the subsequent `print` did — is an `UnboundLocalError`). -/
def lnprob {T : Type} (s : MCMCState T) (theta : List ℚ) :
    Except PyErr LogProb :=
  match generate_theory s theta with
  | Except.error e => Except.error e
  | Except.ok (_, GTRes.errFlag) => Except.ok LogProb.neginf
  | Except.ok (s', GTRes.theory t) =>
    match lnprior s' theta with
    | none => Except.error PyErr.lookupError
    | some LogProb.neginf => Except.ok LogProb.neginf
    | some (LogProb.fin prior) =>
      match likeLoop s'.likelihoods t none with
      | none => Except.error PyErr.unboundLocalError
      | some like => Except.ok (LogProb.fin (prior + like))

/-- The walker-count correction at the top of `run`:
`if self.n_walkers < 2*ndim: self.n_walkers = 2*ndim`. -/
def correctedWalkers {T : Type} (s : MCMCState T) : ℤ :=
  if s.n_walkers < 2 * (s.fit_keys.length : ℤ) then 2 * (s.fit_keys.length : ℤ)
  else s.n_walkers

/-- The list comprehension
`[self.fit_params[key][1] for key in self.fit_keys]`: the fiducial (middle)
value of every fit parameter, `none` on a missing key or a too-short list. -/
def fidLoop (fp : Dict (List ℚ)) : List String → Option (List ℚ)
  | [] => some []
  | k :: ks =>
    match (Dict.get? fp k).bind (fun v => v.get? 1) with
    | none => none
    | some fid => (fidLoop fp ks).map (fun l => fid :: l)

/-- The fiducial vector of the current fit parameters, in fit-key order. -/
def fiducials {T : Type} (s : MCMCState T) : Option (List ℚ) :=
  fidLoop s.fit_params s.fit_keys

/-- `pos += np.random.randn(ndim)*self.initial_delta*pos`, elementwise with
the noise stream `r` indexed by coordinate position `j`. -/
def jitter (delta : ℚ) (r : ℕ → ℚ) : List ℚ → ℕ → List ℚ
  | [], _ => []
  | p :: ps, j => (p + r j * delta * p) :: jitter delta r ps (j + 1)

/-- One iteration of the walker loop of `generate_initial_pos`: the fiducial
vector jittered with walker `i`'s noise. -/
def walkerStep {T : Type} (s : MCMCState T) (noise : ℕ → ℕ → ℚ) (i : ℕ) :
    Option (List ℚ) :=
  (fiducials s).map (fun pos => jitter s.initial_delta (noise i) pos 0)

/-- The `for i in range(self.n_walkers)` loop of `generate_initial_pos`. -/
def walkerLoop {T : Type} (s : MCMCState T) (noise : ℕ → ℕ → ℚ) :
    List ℕ → Option (List (List ℚ))
  | [] => some []
  | i :: rest =>
    match walkerStep s noise i with
    | none => none
    | some pos => (walkerLoop s noise rest).map (fun l => pos :: l)

/-- `MCMC.generate_initial_pos()`: one jittered copy of the fiducial vector
per walker (`range` of a negative count is empty). -/
def generate_initial_pos {T : Type} (s : MCMCState T) (noise : ℕ → ℕ → ℚ) :
    Option (List (List ℚ)) :=
  walkerLoop s noise (List.range s.n_walkers.toNat)

/-- Behaviour of the external pieces touched by `run`: the chain stored in
the backend file (steps × walkers × coordinates), read on resume, and the
data held by the sampler object after `run_mcmc`. -/
structure RunExt : Type where
  storedChain : List (List (List ℚ))
  samplerData : SamplerData

/-- `samples.T[:,:,-1].T` on the (steps, walkers, ndim) chain array: the last
step's positions, `none` (`IndexError`) when no step is stored. -/
def lastPositions (chain : List (List (List ℚ))) : Option (List (List ℚ)) :=
  chain.getLast?

/-- What a call to `run` did: the object state after the call (attribute
assignments survive even when an exception escapes, recorded by `failed`),
whether `backend.reset(n_walkers, ndim)` was called and with which arguments,
whether `sampler.run_mcmc` was invoked, and the returned value. -/
structure RunOutcome (T : Type) : Type where
  state : MCMCState T
  resetCalled : Option (ℤ × ℕ)
  ranMcmc : Bool
  failed : Bool
  returned : Option SamplerData

/-- `MCMC.run(N, pos0=None, resume=False, **kwargs)`.  The walker count is
corrected first; a fresh start resets the backend and generates initial
positions, a resume reads the last stored positions (the `pos0` argument is
overwritten in both branches, so it is not a parameter here); only when
`N > 0` is the freshly created sampler stored and `run_mcmc` invoked. -/
def run {T : Type} (s : MCMCState T) (N : ℤ) (resume : Bool) (ext : RunExt)
    (noise : ℕ → ℕ → ℚ) : RunOutcome T :=
  let ndim : ℕ := s.fit_keys.length
  let s1 : MCMCState T := { s with n_walkers := correctedWalkers s }
  let rc : Option (ℤ × ℕ) :=
    if resume then none else some (correctedWalkers s, ndim)
  let pos0 : Option (List (List ℚ)) :=
    if resume then lastPositions ext.storedChain
    else generate_initial_pos s1 noise
  match pos0 with
  | none =>
    { state := s1, resetCalled := rc, ranMcmc := false, failed := true
      returned := none }
  | some _ =>
    if N > 0 then
      let s2 := { s1 with sampler := some ext.samplerData }
      { state := s2, resetCalled := rc, ranMcmc := true, failed := false
        returned := s2.sampler }
    else
      { state := s1, resetCalled := rc, ranMcmc := false, failed := false
        returned := s1.sampler }

/-- `np.argmax` on a list, first index of the maximum, together with the
maximum itself (`none` on the empty list, where numpy raises). -/
def argmaxVal : List ℚ → Option (ℕ × ℚ)
  | [] => none
  | x :: xs =>
    match argmaxVal xs with
    | none => some (0, x)
    | some (m, v) => if x < v then some (m + 1, v) else some (0, x)

/-- `array.argmax()`: first index of the maximum. -/
def argmax (xs : List ℚ) : Option ℕ :=
  (argmaxVal xs).map Prod.fst

/-- `MCMC.get_bf_params()`: index of the maximum of
`sampler.flatlnprobability`, the matching row of `sampler.flatchain`, and the
remapping of that row into a dict keyed by the fit keys. -/
def get_bf_params {T : Type} (s : MCMCState T) : Option (Dict ℚ) :=
  s.sampler.bind fun sd =>
    (argmax sd.flatlnprobability).bind fun whmax =>
      (sd.flatchain.get? whmax).bind fun bf_values =>
        dictFromKeysVals s.fit_keys bf_values []

/-! Concrete states used to evaluate the definitions on explicit inputs. -/

/-- A fresh `MCMC()` object (theory type `Unit`). -/
def s0 : MCMCState Unit := MCMC.init Unit

/-- A state with two registered fit parameters. -/
def sTwoFit : MCMCState Unit :=
  set_params s0 [("a", PyVal.list [0, 1, 2]), ("b", PyVal.tuple [-1, 0, 1])]

/-- `sTwoFit` with a cosmology whose model run always succeeds and one
registered likelihood. -/
def sBug : MCMCState Unit :=
  add_likelihood
    (set_cosmology sTwoFit { params := [], fullRun := fun _ => Except.ok () })
    (fun _ => 5)

/-- `sTwoFit` with a cosmology whose model run always raises. -/
def sFail : MCMCState Unit :=
  set_cosmology sTwoFit { params := [], fullRun := fun _ => Except.error () }

/-- `sTwoFit` with a stored sampler, 2 walkers and zero perturbation delta. -/
def sRun : MCMCState Unit :=
  { sTwoFit with
    sampler := some { flatlnprobability := [0], flatchain := [[1, 0]] }
    initial_delta := 0 }

/-- A state holding synthetic flattened sampler output: the maximum
log-probability sits at index 1. -/
def sBF : MCMCState Unit :=
  { sTwoFit with
    sampler := some
      { flatlnprobability := [1, 3, 2]
        flatchain := [[10, 11], [20, 21], [30, 31]] } }

/-- `sTwoFit` with an additional base parameter `d`. -/
def sMix : MCMCState Unit := set_params sTwoFit [("d", PyVal.num 1)]

/-- External behaviour used by the `run` witnesses. -/
def extW : RunExt :=
  { storedChain := [[[1, 0], [2, 0], [0, 1], [0, 2]]]
    samplerData := { flatlnprobability := [7], flatchain := [[1, 1]] } }

/-- A silent noise stream for the `run` witnesses. -/
def noNoise : ℕ → ℕ → ℚ := fun _ _ => 0

/-! Basic properties of the dict model. -/

theorem Dict.get?_nil {α : Type} (k : String) :
    Dict.get? ([] : Dict α) k = none := rfl

theorem Dict.get?_cons {α : Type} (p : String × α) (rest : Dict α)
    (k : String) :
    Dict.get? (p :: rest) k =
      if p.1 = k then some p.2 else Dict.get? rest k := by
  by_cases hp : p.1 = k
  · have hb : (p.1 == k) = true := beq_iff_eq.mpr hp
    simp [Dict.get?, List.find?, hb, hp]
  · have hb : (p.1 == k) = false := beq_eq_false_iff_ne.mpr hp
    simp [Dict.get?, List.find?, hb, hp]

theorem Dict.contains_nil {α : Type} (k : String) :
    Dict.contains ([] : Dict α) k = false := rfl

theorem Dict.contains_cons {α : Type} (p : String × α) (rest : Dict α)
    (k : String) :
    Dict.contains (p :: rest) k = ((p.1 == k) || Dict.contains rest k) := by
  simp [Dict.contains]

theorem Dict.contains_eq_isSome {α : Type} (d : Dict α) (k : String) :
    d.contains k = (Dict.get? d k).isSome := by
  induction d with
  | nil => rfl
  | cons p rest ih =>
    by_cases hp : p.1 = k <;>
      simp [Dict.contains_cons, Dict.get?_cons, hp, ih]

theorem Dict.get?_append_left {α : Type} (d₁ d₂ : Dict α) (k : String)
    (x : α) (h : Dict.get? d₁ k = some x) :
    Dict.get? (d₁ ++ d₂) k = some x := by
  induction d₁ with
  | nil => simp [Dict.get?_nil] at h
  | cons p rest ih =>
    by_cases hp : p.1 = k
    · simpa [Dict.get?_cons, hp] using h
    · rw [Dict.get?_cons, if_neg hp] at h
      simpa [Dict.get?_cons, hp] using ih h

theorem Dict.get?_append_right {α : Type} (d₁ d₂ : Dict α) (k : String)
    (h : Dict.get? d₁ k = none) :
    Dict.get? (d₁ ++ d₂) k = Dict.get? d₂ k := by
  induction d₁ with
  | nil => simp
  | cons p rest ih =>
    by_cases hp : p.1 = k
    · simp [Dict.get?_cons, hp] at h
    · rw [Dict.get?_cons, if_neg hp] at h
      simpa [Dict.get?_cons, hp] using ih h

theorem Dict.set_eq_append {α : Type} (d : Dict α) (k : String) (v : α)
    (h : d.contains k = false) : Dict.set d k v = d ++ [(k, v)] := by
  have h' : (d.any fun p => p.1 == k) = false := h
  simp [Dict.set, h']

theorem Dict.set_eq_map {α : Type} (d : Dict α) (k : String) (v : α)
    (h : d.contains k = true) :
    Dict.set d k v = d.map (fun p => if p.1 == k then (k, v) else p) := by
  have h' : (d.any fun p => p.1 == k) = true := h
  simp [Dict.set, h']

theorem Dict.get?_map_self {α : Type} (d : Dict α) (k : String) (v : α)
    (h : d.contains k = true) :
    Dict.get? (d.map (fun p => if p.1 == k then (k, v) else p)) k
      = some v := by
  induction d with
  | nil => simp [Dict.contains_nil] at h
  | cons p rest ih =>
    by_cases hp : p.1 = k
    · have hb : (p.1 == k) = true := beq_iff_eq.mpr hp
      simp [hb, hp, Dict.get?_cons]
    · have hb : (p.1 == k) = false := beq_eq_false_iff_ne.mpr hp
      have hrest : Dict.contains rest k = true := by
        simpa [Dict.contains_cons, hb] using h
      simpa [hb, hp, Dict.get?_cons] using ih hrest

theorem Dict.get?_map_ne {α : Type} (d : Dict α) (k k' : String) (v : α)
    (h : k' ≠ k) :
    Dict.get? (d.map (fun p => if p.1 == k then (k, v) else p)) k'
      = Dict.get? d k' := by
  induction d with
  | nil => rfl
  | cons p rest ih =>
    by_cases hp : p.1 = k
    · have hb : (p.1 == k) = true := beq_iff_eq.mpr hp
      have hk : ¬k = k' := fun hkk => h hkk.symm
      have hp' : ¬p.1 = k' := by rw [hp]; exact hk
      simpa [hb, hp, Dict.get?_cons, hk, hp'] using ih
    · have hb : (p.1 == k) = false := beq_eq_false_iff_ne.mpr hp
      by_cases hp' : p.1 = k'
      · simp [hb, hp, Dict.get?_cons, hp', h]
      · simpa [hb, hp, Dict.get?_cons, hp'] using ih

theorem Dict.get?_set_self {α : Type} (d : Dict α) (k : String) (v : α) :
    Dict.get? (Dict.set d k v) k = some v := by
  by_cases hc : d.contains k = true
  · rw [Dict.set_eq_map d k v hc]
    exact Dict.get?_map_self d k v hc
  · have hc' : d.contains k = false := by
      cases h : d.contains k
      · rfl
      · exact absurd h hc
    rw [Dict.set_eq_append d k v hc']
    have hnone : Dict.get? d k = none := by
      have := Dict.contains_eq_isSome d k
      rw [hc'] at this
      cases h : Dict.get? d k
      · rfl
      · rw [h] at this; simp at this
    rw [Dict.get?_append_right d [(k, v)] k hnone]
    simp [Dict.get?_cons]

theorem Dict.get?_set_ne {α : Type} (d : Dict α) (k k' : String) (v : α)
    (h : k' ≠ k) : Dict.get? (Dict.set d k v) k' = Dict.get? d k' := by
  by_cases hc : d.contains k = true
  · rw [Dict.set_eq_map d k v hc]
    exact Dict.get?_map_ne d k k' v h
  · have hc' : d.contains k = false := by
      cases hcc : d.contains k
      · rfl
      · exact absurd hcc hc
    rw [Dict.set_eq_append d k v hc']
    cases hd : Dict.get? d k' with
    | some x => exact Dict.get?_append_left d [(k, v)] k' x hd
    | none =>
      rw [Dict.get?_append_right d [(k, v)] k' hd]
      have hk : ¬k = k' := fun hkk => h hkk.symm
      simp [Dict.get?_cons, hk, Dict.get?_nil]

theorem Dict.contains_set_self {α : Type} (d : Dict α) (k : String)
    (v : α) : Dict.contains (Dict.set d k v) k = true := by
  rw [Dict.contains_eq_isSome, Dict.get?_set_self]
  rfl

theorem Dict.contains_set_mono {α : Type} (d : Dict α) (k k' : String)
    (v : α) (h : d.contains k' = true) :
    Dict.contains (Dict.set d k v) k' = true := by
  by_cases hk : k' = k
  · subst hk; exact Dict.contains_set_self d k' v
  · rw [Dict.contains_eq_isSome, Dict.get?_set_ne d k k' v hk]
    rw [Dict.contains_eq_isSome] at h
    exact h

theorem Dict.mem_keys_iff {α : Type} (d : Dict α) (k : String) :
    k ∈ Dict.keys d ↔ d.contains k = true := by
  induction d with
  | nil => simp [Dict.keys, Dict.contains_nil]
  | cons p rest ih =>
    by_cases hp : p.1 = k
    · have hb : (p.1 == k) = true := beq_iff_eq.mpr hp
      simp [Dict.keys, Dict.contains_cons, hb, hp]
    · have hb : (p.1 == k) = false := beq_eq_false_iff_ne.mpr hp
      have hne : ¬p.1 = k := hp
      simp only [Dict.keys, List.map_cons, List.mem_cons,
        Dict.contains_cons, hb, Bool.false_or]
      constructor
      · intro hmem
        rcases hmem with heq | hmem
        · exact absurd heq.symm hne
        · exact ih.mp hmem
      · intro hc
        exact Or.inr (ih.mpr hc)

/-! Properties of the `set_params` classification loop. -/

theorem applyParams_get_stable (ps : List (String × PyVal)) :
    ∀ (st : Dict ℚ × Dict (List ℚ)) (k : String),
      k ∉ ps.map Prod.fst →
      Dict.get? (applyParams ps st).1 k = Dict.get? st.1 k ∧
      Dict.get? (applyParams ps st).2 k = Dict.get? st.2 k := by
  induction ps with
  | nil => intro st k _; exact ⟨rfl, rfl⟩
  | cons q rest ih =>
    intro st k hk
    have hne : k ≠ q.1 := by
      intro hkq
      exact hk (by simp [hkq])
    have hrest : k ∉ rest.map Prod.fst := by
      intro hmem
      exact hk (by simp [hmem])
    obtain ⟨k', v⟩ := q
    cases v with
    | num x =>
      rcases ih (st.1.set k' x, st.2) k hrest with ⟨h1, h2⟩
      exact ⟨h1.trans (Dict.get?_set_ne st.1 k' k x hne), h2⟩
    | list xs =>
      rcases ih (st.1, st.2.set k' xs) k hrest with ⟨h1, h2⟩
      exact ⟨h1, h2.trans (Dict.get?_set_ne st.2 k' k xs hne)⟩
    | tuple xs =>
      rcases ih (st.1, st.2.set k' xs) k hrest with ⟨h1, h2⟩
      exact ⟨h1, h2.trans (Dict.get?_set_ne st.2 k' k xs hne)⟩

theorem applyParams_get_list (ps : List (String × PyVal)) :
    ∀ (st : Dict ℚ × Dict (List ℚ)) (k : String) (xs : List ℚ),
      (ps.map Prod.fst).Nodup → (k, PyVal.list xs) ∈ ps →
      Dict.get? (applyParams ps st).2 k = some xs := by
  induction ps with
  | nil => intro st k xs _ hm; cases hm
  | cons q rest ih =>
    intro st k xs hnd hm
    rcases List.mem_cons.mp hm with heq | hmem
    · subst heq
      have hk : k ∉ rest.map Prod.fst := by
        simpa using (List.nodup_cons.mp hnd).1
      have := (applyParams_get_stable rest (st.1, st.2.set k xs) k hk).2
      simpa [applyParams, Dict.get?_set_self] using this
    · obtain ⟨k', v⟩ := q
      have hnd' : (rest.map Prod.fst).Nodup := (List.nodup_cons.mp hnd).2
      cases v with
      | num x => exact ih (st.1.set k' x, st.2) k xs hnd' hmem
      | list ys => exact ih (st.1, st.2.set k' ys) k xs hnd' hmem
      | tuple ys => exact ih (st.1, st.2.set k' ys) k xs hnd' hmem

theorem applyParams_get_tuple (ps : List (String × PyVal)) :
    ∀ (st : Dict ℚ × Dict (List ℚ)) (k : String) (xs : List ℚ),
      (ps.map Prod.fst).Nodup → (k, PyVal.tuple xs) ∈ ps →
      Dict.get? (applyParams ps st).2 k = some xs := by
  induction ps with
  | nil => intro st k xs _ hm; cases hm
  | cons q rest ih =>
    intro st k xs hnd hm
    rcases List.mem_cons.mp hm with heq | hmem
    · subst heq
      have hk : k ∉ rest.map Prod.fst := by
        simpa using (List.nodup_cons.mp hnd).1
      have := (applyParams_get_stable rest (st.1, st.2.set k xs) k hk).2
      simpa [applyParams, Dict.get?_set_self] using this
    · obtain ⟨k', v⟩ := q
      have hnd' : (rest.map Prod.fst).Nodup := (List.nodup_cons.mp hnd).2
      cases v with
      | num x => exact ih (st.1.set k' x, st.2) k xs hnd' hmem
      | list ys => exact ih (st.1, st.2.set k' ys) k xs hnd' hmem
      | tuple ys => exact ih (st.1, st.2.set k' ys) k xs hnd' hmem

theorem applyParams_get_num (ps : List (String × PyVal)) :
    ∀ (st : Dict ℚ × Dict (List ℚ)) (k : String) (x : ℚ),
      (ps.map Prod.fst).Nodup → (k, PyVal.num x) ∈ ps →
      Dict.get? (applyParams ps st).1 k = some x := by
  induction ps with
  | nil => intro st k x _ hm; cases hm
  | cons q rest ih =>
    intro st k x hnd hm
    rcases List.mem_cons.mp hm with heq | hmem
    · subst heq
      have hk : k ∉ rest.map Prod.fst := by
        simpa using (List.nodup_cons.mp hnd).1
      have := (applyParams_get_stable rest (st.1.set k x, st.2) k hk).1
      simpa [applyParams, Dict.get?_set_self] using this
    · obtain ⟨k', v⟩ := q
      have hnd' : (rest.map Prod.fst).Nodup := (List.nodup_cons.mp hnd).2
      cases v with
      | num y => exact ih (st.1.set k' y, st.2) k x hnd' hmem
      | list ys => exact ih (st.1, st.2.set k' ys) k x hnd' hmem
      | tuple ys => exact ih (st.1, st.2.set k' ys) k x hnd' hmem

theorem applyParams_contains_mono (ps : List (String × PyVal)) :
    ∀ (st : Dict ℚ × Dict (List ℚ)) (k : String),
      (Dict.contains st.1 k = true →
        Dict.contains (applyParams ps st).1 k = true) ∧
      (Dict.contains st.2 k = true →
        Dict.contains (applyParams ps st).2 k = true) := by
  induction ps with
  | nil => intro st k; exact ⟨id, id⟩
  | cons q rest ih =>
    intro st k
    obtain ⟨k', v⟩ := q
    cases v with
    | num x =>
      refine ⟨fun h => (ih (st.1.set k' x, st.2) k).1 ?_,
        fun h => (ih (st.1.set k' x, st.2) k).2 h⟩
      exact Dict.contains_set_mono st.1 k' k x h
    | list xs =>
      refine ⟨fun h => (ih (st.1, st.2.set k' xs) k).1 h,
        fun h => (ih (st.1, st.2.set k' xs) k).2 ?_⟩
      exact Dict.contains_set_mono st.2 k' k xs h
    | tuple xs =>
      refine ⟨fun h => (ih (st.1, st.2.set k' xs) k).1 h,
        fun h => (ih (st.1, st.2.set k' xs) k).2 ?_⟩
      exact Dict.contains_set_mono st.2 k' k xs h

theorem applyParams_contains_num (ps : List (String × PyVal)) :
    ∀ (st : Dict ℚ × Dict (List ℚ)) (k : String) (x : ℚ),
      (k, PyVal.num x) ∈ ps →
      Dict.contains (applyParams ps st).1 k = true := by
  induction ps with
  | nil => intro st k x hm; cases hm
  | cons q rest ih =>
    intro st k x hm
    rcases List.mem_cons.mp hm with heq | hmem
    · subst heq
      exact (applyParams_contains_mono rest (st.1.set k x, st.2) k).1
        (Dict.contains_set_self st.1 k x)
    · obtain ⟨k', v⟩ := q
      cases v with
      | num y => exact ih (st.1.set k' y, st.2) k x hmem
      | list ys => exact ih (st.1, st.2.set k' ys) k x hmem
      | tuple ys => exact ih (st.1, st.2.set k' ys) k x hmem

theorem applyParams_contains_fit (ps : List (String × PyVal)) :
    ∀ (st : Dict ℚ × Dict (List ℚ)) (k : String) (xs : List ℚ),
      ((k, PyVal.list xs) ∈ ps ∨ (k, PyVal.tuple xs) ∈ ps) →
      Dict.contains (applyParams ps st).2 k = true := by
  induction ps with
  | nil => intro st k xs hm; rcases hm with hm | hm <;> cases hm
  | cons q rest ih =>
    intro st k xs hm
    have hstep : (q = (k, PyVal.list xs) ∨ q = (k, PyVal.tuple xs)) ∨
        ((k, PyVal.list xs) ∈ rest ∨ (k, PyVal.tuple xs) ∈ rest) := by
      rcases hm with hm | hm <;> rcases List.mem_cons.mp hm with heq | hmem
      · exact Or.inl (Or.inl heq.symm)
      · exact Or.inr (Or.inl hmem)
      · exact Or.inl (Or.inr heq.symm)
      · exact Or.inr (Or.inr hmem)
    rcases hstep with heq | hmem
    · rcases heq with heq | heq <;> subst heq
      · exact (applyParams_contains_mono rest (st.1, st.2.set k xs) k).2
          (Dict.contains_set_self st.2 k xs)
      · exact (applyParams_contains_mono rest (st.1, st.2.set k xs) k).2
          (Dict.contains_set_self st.2 k xs)
    · obtain ⟨k', v⟩ := q
      cases v with
      | num y => exact ih (st.1.set k' y, st.2) k xs hmem
      | list ys => exact ih (st.1, st.2.set k' ys) k xs hmem
      | tuple ys => exact ih (st.1, st.2.set k' ys) k xs hmem

theorem set_params_base_eq {T : Type} (s : MCMCState T)
    (params : Dict PyVal) :
    (set_params s params).base_params =
      (applyParams params (s.base_params, s.fit_params)).1 := rfl

theorem set_params_fit_eq {T : Type} (s : MCMCState T)
    (params : Dict PyVal) :
    (set_params s params).fit_params =
      (applyParams params (s.base_params, s.fit_params)).2 := rfl

theorem set_params_keys_eq {T : Type} (s : MCMCState T)
    (params : Dict PyVal) :
    (set_params s params).fit_keys =
      Dict.keys (applyParams params (s.base_params, s.fit_params)).2 := rfl

/-- C5 (counterexample): a key whose value is a 2-element list is routed to
the fit-parameter store, not to the base-parameter store, contradicting the
claim that a list whose length is not 3 becomes a fixed base parameter. -/
theorem set_params_short_list_counterexample :
    Dict.get? (set_params s0 [("a", PyVal.list [1, 2])]).base_params ("a")
        = none ∧
      Dict.get? (set_params s0 [("a", PyVal.list [1, 2])]).fit_params ("a")
        = some [1, 2] := by
  constructor <;> rfl

/-- C5 (amended): for a configuration mapping with distinct keys, a key
whose value is a list of any length is routed to the fit-parameter store as
that list, a key whose value is a tuple of any length is routed to the
fit-parameter store normalized to a list with the same elements, and a key
whose value is a scalar is routed to the base-parameter store; in particular
a list or tuple whose length is not 3 still becomes a fit parameter. -/
theorem set_params_routing {T : Type} (s : MCMCState T)
    (params : Dict PyVal) (hnd : (params.map Prod.fst).Nodup) :
    (∀ k xs, (k, PyVal.list xs) ∈ params →
      Dict.get? (set_params s params).fit_params k = some xs) ∧
    (∀ k xs, (k, PyVal.tuple xs) ∈ params →
      Dict.get? (set_params s params).fit_params k = some xs) ∧
    (∀ k x, (k, PyVal.num x) ∈ params →
      Dict.get? (set_params s params).base_params k = some x) := by
  refine ⟨fun k xs hm => ?_, fun k xs hm => ?_, fun k x hm => ?_⟩
  · rw [set_params_fit_eq]
    exact applyParams_get_list params (s.base_params, s.fit_params) k xs
      hnd hm
  · rw [set_params_fit_eq]
    exact applyParams_get_tuple params (s.base_params, s.fit_params) k xs
      hnd hm
  · rw [set_params_base_eq]
    exact applyParams_get_num params (s.base_params, s.fit_params) k x
      hnd hm

/-- C5 (witness): on a fresh object, a 3-element list, a 2-element tuple and
a scalar are routed as the amended claim states. -/
theorem set_params_routing_witness :
    Dict.get? (set_params s0
        [("a", PyVal.list [1, 2, 3]), ("b", PyVal.tuple [4, 5]),
          ("c", PyVal.num 7)]).fit_params ("a") = some [1, 2, 3] ∧
    Dict.get? (set_params s0
        [("a", PyVal.list [1, 2, 3]), ("b", PyVal.tuple [4, 5]),
          ("c", PyVal.num 7)]).fit_params ("b") = some [4, 5] ∧
    Dict.get? (set_params s0
        [("a", PyVal.list [1, 2, 3]), ("b", PyVal.tuple [4, 5]),
          ("c", PyVal.num 7)]).base_params ("c") = some 7 :=
  ⟨(set_params_routing s0 _ (by decide)).1 ("a") [1, 2, 3] (by decide),
    (set_params_routing s0 _ (by decide)).2.1 ("b") [4, 5] (by decide),
    (set_params_routing s0 _ (by decide)).2.2 ("c") 7 (by decide)⟩

/-- C9: `set_params` only ever adds or overwrites entries: keys already in
the fit store stay there, keys already in the base store stay there, the fit
key list always lists exactly the keys of the fit store, a key supplied with
a scalar is (also) present in the base store afterwards, and a key supplied
with a list or tuple is (also) present in the fit store afterwards — no call
reclassifies a key out of either store. -/
theorem set_params_never_removes {T : Type} (s : MCMCState T)
    (params : Dict PyVal) :
    (∀ k, Dict.contains s.fit_params k = true →
      Dict.contains (set_params s params).fit_params k = true) ∧
    (∀ k, Dict.contains s.base_params k = true →
      Dict.contains (set_params s params).base_params k = true) ∧
    (∀ k, Dict.contains (set_params s params).fit_params k = true ↔
      k ∈ (set_params s params).fit_keys) ∧
    (∀ k x, (k, PyVal.num x) ∈ params →
      Dict.contains (set_params s params).base_params k = true) ∧
    (∀ k xs, ((k, PyVal.list xs) ∈ params ∨ (k, PyVal.tuple xs) ∈ params) →
      Dict.contains (set_params s params).fit_params k = true) := by
  refine ⟨fun k h => ?_, fun k h => ?_, fun k => ?_, fun k x hm => ?_,
    fun k xs hm => ?_⟩
  · rw [set_params_fit_eq]
    exact (applyParams_contains_mono params (s.base_params, s.fit_params)
      k).2 h
  · rw [set_params_base_eq]
    exact (applyParams_contains_mono params (s.base_params, s.fit_params)
      k).1 h
  · rw [set_params_fit_eq, set_params_keys_eq]
    exact (Dict.mem_keys_iff _ k).symm
  · rw [set_params_base_eq]
    exact applyParams_contains_num params (s.base_params, s.fit_params)
      k x hm
  · rw [set_params_fit_eq]
    exact applyParams_contains_fit params (s.base_params, s.fit_params)
      k xs hm

/-- C9 (witness): on a state where `a` is a fit parameter and `d` a base
parameter, re-supplying `a` as a scalar keeps it a fit parameter (and in the
fit-key list) while also adding it to the base store, and re-supplying `d`
as a triple keeps it in the base store. -/
theorem set_params_never_removes_witness :
    Dict.contains
        (set_params sMix [("a", PyVal.num 9), ("d", PyVal.list [0, 1, 2])]
          ).fit_params ("a") = true ∧
      Dict.contains
        (set_params sMix [("a", PyVal.num 9), ("d", PyVal.list [0, 1, 2])]
          ).base_params ("d") = true ∧
      ("a") ∈ (set_params sMix
          [("a", PyVal.num 9), ("d", PyVal.list [0, 1, 2])]).fit_keys ∧
      Dict.contains
        (set_params sMix [("a", PyVal.num 9), ("d", PyVal.list [0, 1, 2])]
          ).base_params ("a") = true ∧
      Dict.contains
        (set_params sMix [("a", PyVal.num 9), ("d", PyVal.list [0, 1, 2])]
          ).fit_params ("d") = true := by
  have h := set_params_never_removes sMix
    [("a", PyVal.num 9), ("d", PyVal.list [0, 1, 2])]
  have hfitA := h.1 ("a") (by decide)
  refine ⟨hfitA, h.2.1 ("d") (by decide), (h.2.2.1 ("a")).mp hfitA,
    h.2.2.2.1 ("a") 9 (by decide), h.2.2.2.2 ("d") [0, 1, 2]
      (Or.inl (by decide))⟩

/-! The prior evaluator. -/

theorem lnpriorAux_bounds (fp : Dict (List ℚ)) :
    ∀ (keys : List String) (theta : List ℚ)
      (triples : List (ℚ × ℚ × ℚ)),
      theta.length = keys.length → keys.length = triples.length →
      (∀ p ∈ keys.zip triples,
        Dict.get? fp p.1 = some [p.2.1, p.2.2.1, p.2.2.2]) →
      ((∀ q ∈ theta.zip triples, q.2.1 ≤ q.1 ∧ q.1 ≤ q.2.2.2) →
        lnpriorAux fp keys theta = some (LogProb.fin 0)) ∧
      ((∃ q ∈ theta.zip triples, q.1 < q.2.1 ∨ q.2.2.2 < q.1) →
        lnpriorAux fp keys theta = some LogProb.neginf) := by
  intro keys
  induction keys with
  | nil =>
    intro theta triples hlen _ _
    have htz : theta = [] := List.length_eq_zero.mp hlen
    subst htz
    exact ⟨fun _ => rfl, fun h => by rcases h with ⟨q, hq, _⟩; cases hq⟩
  | cons k ks ih =>
    intro theta triples hlen hkt hb
    cases theta with
    | nil => simp at hlen
    | cons p th =>
      cases triples with
      | nil => simp at hkt
      | cons tr ts =>
        have hbk : Dict.get? fp k = some [tr.1, tr.2.1, tr.2.2] :=
          hb (k, tr) (by simp)
        have hbt : ∀ p ∈ ks.zip ts,
            Dict.get? fp p.1 = some [p.2.1, p.2.2.1, p.2.2.2] :=
          fun p hp => hb p (by simp [hp])
        have hlen' : th.length = ks.length := by simpa using hlen
        have hkt' : ks.length = ts.length := by simpa using hkt
        have ihr := ih th ts hlen' hkt' hbt
        have hstep : lnpriorAux fp (k :: ks) (p :: th) =
            if p < tr.1 then some LogProb.neginf
            else if tr.2.2 < p then some LogProb.neginf
            else lnpriorAux fp ks th := by
          simp [lnpriorAux, hbk]
        constructor
        · intro hin
          have hhead := hin (p, tr) (by simp)
          have h1 : ¬p < tr.1 := not_lt.mpr hhead.1
          have h2 : ¬tr.2.2 < p := not_lt.mpr hhead.2
          rw [hstep, if_neg h1, if_neg h2]
          exact ihr.1 (fun q hq => hin q (by simp [hq]))
        · rintro ⟨q, hq, hout⟩
          rcases List.mem_cons.mp hq with heq | hmem
          · subst heq
            rcases hout with hlt | hgt
            · rw [hstep, if_pos hlt]
            · by_cases hlt : p < tr.1
              · rw [hstep, if_pos hlt]
              · rw [hstep, if_neg hlt, if_pos hgt]
          · by_cases h1 : p < tr.1
            · rw [hstep, if_pos h1]
            · by_cases h2 : tr.2.2 < p
              · rw [hstep, if_neg h1, if_pos h2]
              · rw [hstep, if_neg h1, if_neg h2]
                exact ihr.2 ⟨q, hmem, hout⟩

/-- C1: for a coordinate vector aligned to the fit-key order whose
components all lie within their registered (lower, fiducial, upper) triple's
[lower, upper] bound, `lnprior` returns zero; when any component lies
strictly outside its bound, it returns negative infinity. -/
theorem lnprior_flat_prior {T : Type} (s : MCMCState T) (theta : List ℚ)
    (triples : List (ℚ × ℚ × ℚ))
    (hlen : theta.length = s.fit_keys.length)
    (hkt : s.fit_keys.length = triples.length)
    (hb : ∀ p ∈ s.fit_keys.zip triples,
      Dict.get? s.fit_params p.1 = some [p.2.1, p.2.2.1, p.2.2.2]) :
    ((∀ q ∈ theta.zip triples, q.2.1 ≤ q.1 ∧ q.1 ≤ q.2.2.2) →
      lnprior s theta = some (LogProb.fin 0)) ∧
    ((∃ q ∈ theta.zip triples, q.1 < q.2.1 ∨ q.2.2.2 < q.1) →
      lnprior s theta = some LogProb.neginf) :=
  lnpriorAux_bounds s.fit_params s.fit_keys theta triples hlen hkt hb

/-- C1 (witness): on the registered triples `a ↦ (0,1,2)` and
`b ↦ (-1,0,1)`, the in-bounds vector `[1, 0]` gets prior zero and the
out-of-bounds vector `[3, 0]` gets negative infinity. -/
theorem lnprior_flat_prior_witness :
    lnprior sTwoFit [1, 0] = some (LogProb.fin 0) ∧
      lnprior sTwoFit [3, 0] = some LogProb.neginf := by
  constructor
  · exact (lnprior_flat_prior sTwoFit [1, 0] [(0, 1, 2), (-1, 0, 1)]
      (by decide) (by decide) (by decide)).1 (by decide)
  · exact (lnprior_flat_prior sTwoFit [3, 0] [(0, 1, 2), (-1, 0, 1)]
      (by decide) (by decide) (by decide)).2 ⟨(3, (0, 1, 2)), by decide,
        by decide⟩

/-! The theory generator and the posterior evaluator. -/

theorem likeLoop_from_none {T : Type} (fs : List (T → ℚ)) (t : T) :
    likeLoop fs t none = none := by
  cases fs <;> rfl

/-- C3: whenever the model run succeeds and the prior is finite, and at
least one likelihood is registered, `lnprob` raises `UnboundLocalError`
(the accumulator `like` is read without ever having been assigned) instead
of returning a value. -/
theorem lnprob_accumulator_defect {T : Type} (s s' : MCMCState T)
    (theta : List ℚ) (t : T) (q : ℚ)
    (hgt : generate_theory s theta = Except.ok (s', GTRes.theory t))
    (hp : lnprior s' theta = some (LogProb.fin q))
    (_hl : s.likelihoods ≠ []) :
    lnprob s theta = Except.error PyErr.unboundLocalError := by
  simp only [lnprob, hgt, hp, likeLoop_from_none]

/-- C3 (witness): on a state with one likelihood, a cosmology that runs
fine and an in-bounds vector, `lnprob` raises. -/
theorem lnprob_accumulator_defect_witness :
    lnprob sBug [1, 0] = Except.error PyErr.unboundLocalError :=
  lnprob_accumulator_defect sBug _ [1, 0] () 0 rfl rfl (by decide)

/-- C2 (code_bug evaluation): at a concrete in-bounds coordinate vector on
which the model run succeeds, with a finite prior and one registered
likelihood, `lnprob` raises `UnboundLocalError` instead of returning
prior + likelihood. -/
theorem lnprob_no_value_at_valid_point :
    lnprob sBug [1, 1] = Except.error PyErr.unboundLocalError := rfl

/-- C4: when the cosmology's full evaluation raises, `generate_theory`
catches the exception and returns the sentinel error flag (second component
`True`, first `None`), and `lnprob` returns negative infinity, with no
hypothesis on the prior. -/
theorem generate_theory_catches {T : Type} (s : MCMCState T)
    (theta : List ℚ) (mp : Dict ℚ) (c : Cosmology T)
    (hmp : dictFromKeysVals s.fit_keys theta [] = some mp)
    (hc : s.cosmology = some c)
    (hfail : (c.set_model_params mp).fullRun
      (c.set_model_params mp).params = Except.error ()) :
    generate_theory s theta =
        Except.ok ({ s with cosmology := some (c.set_model_params mp) },
          GTRes.errFlag) ∧
      lnprob s theta = Except.ok LogProb.neginf := by
  have h1 : generate_theory s theta =
      Except.ok ({ s with cosmology := some (c.set_model_params mp) },
        GTRes.errFlag) := by
    simp only [generate_theory, hmp, hc, hfail]
  refine ⟨h1, ?_⟩
  simp only [lnprob, h1]

/-- C4 (witness): on a state whose cosmology always raises, the theory
generator reports the error flag and `lnprob` rejects the point. -/
theorem generate_theory_catches_witness :
    lnprob sFail [1, 0] = Except.ok LogProb.neginf :=
  (generate_theory_catches sFail [1, 0] _ _ rfl rfl rfl).2

/-! Initial position generation. -/

theorem jitter_zero (r : ℕ → ℚ) (pos : List ℚ) :
    ∀ j, jitter 0 r pos j = pos := by
  induction pos with
  | nil => intro j; rfl
  | cons p ps ih => intro j; simp [jitter, ih]

theorem walkerLoop_const {T : Type} (s : MCMCState T) (noise : ℕ → ℕ → ℚ)
    (fids : List ℚ) (hstep : ∀ i, walkerStep s noise i = some fids) :
    ∀ l : List ℕ, walkerLoop s noise l = some (List.replicate l.length fids)
  | [] => rfl
  | i :: rest => by
    simp [walkerLoop, hstep i,
      walkerLoop_const s noise fids hstep rest, List.replicate_succ]

/-- C7: when the perturbation delta is zero, `generate_initial_pos` returns
the fiducial vector of the fit parameters, replicated once per walker. -/
theorem generate_initial_pos_delta_zero {T : Type} (s : MCMCState T)
    (noise : ℕ → ℕ → ℚ) (fids : List ℚ) (hd : s.initial_delta = 0)
    (hf : fiducials s = some fids) :
    generate_initial_pos s noise =
      some (List.replicate s.n_walkers.toNat fids) := by
  have hstep : ∀ i, walkerStep s noise i = some fids := by
    intro i
    simp [walkerStep, hf, hd, jitter_zero]
  rw [generate_initial_pos, walkerLoop_const s noise fids hstep,
    List.length_range]

/-- C7 (witness): on `sRun` (delta 0, fiducials `[1, 0]`, 2 walkers) the
initial positions are the fiducials replicated twice. -/
theorem generate_initial_pos_delta_zero_witness :
    generate_initial_pos sRun noNoise = some [[1, 0], [1, 0]] := by
  have h := generate_initial_pos_delta_zero sRun noNoise [1, 0] rfl
    (by decide)
  simpa using h

/-! The run controller. -/

theorem run_state_n_walkers {T : Type} (s : MCMCState T) (N : ℤ)
    (resume : Bool) (ext : RunExt) (noise : ℕ → ℕ → ℚ) :
    (run s N resume ext noise).state.n_walkers = correctedWalkers s := by
  simp only [run]
  split
  · rfl
  · split <;> rfl

/-- C6: a call to `run` with fewer walkers than twice the number of fit
parameters stores exactly twice that number on the object; a walker count of
at least twice the dimensionality is left unchanged. -/
theorem run_walker_count {T : Type} (s : MCMCState T) (N : ℤ)
    (resume : Bool) (ext : RunExt) (noise : ℕ → ℕ → ℚ) :
    (s.n_walkers < 2 * (s.fit_keys.length : ℤ) →
      (run s N resume ext noise).state.n_walkers
        = 2 * (s.fit_keys.length : ℤ)) ∧
    (2 * (s.fit_keys.length : ℤ) ≤ s.n_walkers →
      (run s N resume ext noise).state.n_walkers = s.n_walkers) := by
  rw [run_state_n_walkers s N resume ext noise]
  constructor
  · intro h
    exact if_pos h
  · intro h
    exact if_neg (not_lt.mpr h)

/-- C6 (witness): requesting 2 walkers for 2 fit parameters yields 4;
requesting 5 leaves 5. -/
theorem run_walker_count_witness :
    (run sTwoFit 3 false extW noNoise).state.n_walkers = 4 ∧
      (run { sTwoFit with n_walkers := 5 } 3 false extW noNoise
        ).state.n_walkers = 5 := by
  constructor
  · exact ((run_walker_count sTwoFit 3 false extW noNoise).1
      (by decide)).trans (by decide)
  · exact (run_walker_count { sTwoFit with n_walkers := 5 } 3 false extW
      noNoise).2 (by decide)

/-- C10: a call to `run` with a non-positive sample count never invokes
`run_mcmc` and leaves the stored sampler attribute unchanged, yet the setup
side effects still occur: the walker count is corrected when too small and,
when not resuming, the persisted backend is reset with the corrected walker
count and the dimensionality. -/
theorem run_nonpositive_N {T : Type} (s : MCMCState T) (N : ℤ)
    (resume : Bool) (ext : RunExt) (noise : ℕ → ℕ → ℚ) (hN : N ≤ 0) :
    (run s N resume ext noise).ranMcmc = false ∧
    (run s N resume ext noise).state.sampler = s.sampler ∧
    (run s N resume ext noise).state.n_walkers
      = (if s.n_walkers < 2 * (s.fit_keys.length : ℤ)
          then 2 * (s.fit_keys.length : ℤ) else s.n_walkers) ∧
    (resume = false → (run s N resume ext noise).resetCalled
      = some (correctedWalkers s, s.fit_keys.length)) := by
  have hN' : ¬N > 0 := by omega
  refine ⟨?_, ?_, ?_, ?_⟩ <;> simp only [run]
  · split
    · rfl
    · rw [if_neg hN']
  · split
    · rfl
    · rw [if_neg hN']
  · split
    · rfl
    · rw [if_neg hN']
      rfl
  · intro hres
    subst hres
    split
    · rfl
    · rw [if_neg hN']
      rfl

/-- C10 (witness): `run` with `N = 0` on a fresh-start call does not touch
the stored sampler, corrects the walker count to 4 and resets the backend
with (4, 2). -/
theorem run_nonpositive_N_witness :
    (run sRun 0 false extW noNoise).ranMcmc = false ∧
      (run sRun 0 false extW noNoise).state.sampler = sRun.sampler ∧
      (run sRun 0 false extW noNoise).state.n_walkers = 4 ∧
      (run sRun 0 false extW noNoise).resetCalled = some (4, 2) := by
  have h := run_nonpositive_N sRun 0 false extW noNoise (by decide)
  exact ⟨h.1, h.2.1, h.2.2.1.trans (by decide),
    (h.2.2.2 rfl).trans (by decide)⟩

/-! Best-fit extraction. -/

theorem get?_some_lt {α : Type} :
    ∀ (l : List α) (n : ℕ) (a : α), l.get? n = some a → n < l.length := by
  intro l
  induction l with
  | nil => intro n a h; cases h
  | cons x xs ih =>
    intro n a h
    cases n with
    | zero => simp
    | succ n' => exact Nat.succ_lt_succ (ih n' a h)

theorem lt_get?_some {α : Type} :
    ∀ (l : List α) (n : ℕ), n < l.length → ∃ a, l.get? n = some a := by
  intro l
  induction l with
  | nil => intro n h; cases h
  | cons x xs ih =>
    intro n h
    cases n with
    | zero => exact ⟨x, rfl⟩
    | succ n' => exact ih n' (Nat.lt_of_succ_lt_succ h)

theorem get?_some_mem {α : Type} :
    ∀ (l : List α) (n : ℕ) (a : α), l.get? n = some a → a ∈ l := by
  intro l
  induction l with
  | nil => intro n a h; cases h
  | cons x xs ih =>
    intro n a h
    cases n with
    | zero => cases h; exact List.mem_cons_self x xs
    | succ n' => exact List.mem_cons_of_mem x (ih n' a h)

theorem argmaxVal_cons_isSome (x : ℚ) (xs : List ℚ) :
    ∃ p, argmaxVal (x :: xs) = some p := by
  cases hx : argmaxVal xs with
  | none => exact ⟨(0, x), by simp [argmaxVal, hx]⟩
  | some p =>
    obtain ⟨m, v⟩ := p
    by_cases hlt : x < v
    · exact ⟨(m + 1, v), by simp [argmaxVal, hx, hlt]⟩
    · exact ⟨(0, x), by simp [argmaxVal, hx, hlt]⟩

theorem argmaxVal_spec :
    ∀ (xs : List ℚ) (m : ℕ) (v : ℚ), argmaxVal xs = some (m, v) →
      xs.get? m = some v ∧ (∀ y ∈ xs, y ≤ v) ∧
        (∀ j y, j < m → xs.get? j = some y → y < v) := by
  intro xs
  induction xs with
  | nil => intro m v h; cases h
  | cons x xs ih =>
    intro m v h
    cases hx : argmaxVal xs with
    | none =>
      have hxs : xs = [] := by
        cases xs with
        | nil => rfl
        | cons y ys =>
          rcases argmaxVal_cons_isSome y ys with ⟨p, hp⟩
          rw [hp] at hx
          cases hx
      rw [argmaxVal, hx] at h
      cases h
      subst hxs
      refine ⟨rfl, ?_, ?_⟩
      · intro y hy
        rcases List.mem_singleton.mp hy with rfl
        exact le_refl _
      · intro j y hj _
        cases hj
    | some p =>
      obtain ⟨m', v'⟩ := p
      have ihs := ih m' v' hx
      simp only [argmaxVal, hx] at h
      by_cases hlt : x < v'
      · rw [if_pos hlt] at h
        cases h
        refine ⟨ihs.1, ?_, ?_⟩
        · intro y hy
          rcases List.mem_cons.mp hy with rfl | hmem
          · exact le_of_lt hlt
          · exact ihs.2.1 y hmem
        · intro j y hj hg
          cases j with
          | zero =>
            cases hg
            exact hlt
          | succ j' =>
            exact ihs.2.2 j' y (Nat.lt_of_succ_lt_succ hj) hg
      · rw [if_neg hlt] at h
        cases h
        refine ⟨rfl, ?_, ?_⟩
        · intro y hy
          rcases List.mem_cons.mp hy with rfl | hmem
          · exact le_refl _
          · exact le_trans (ihs.2.1 y hmem) (not_lt.mp hlt)
        · intro j y hj _
          cases hj

theorem Dict.contains_append {α : Type} (d₁ d₂ : Dict α) (k : String) :
    Dict.contains (d₁ ++ d₂) k
      = (Dict.contains d₁ k || Dict.contains d₂ k) := by
  simp [Dict.contains]

theorem dictFromKeysVals_zip :
    ∀ (keys : List String) (vals : List ℚ) (acc : Dict ℚ),
      keys.Nodup → (∀ k ∈ keys, Dict.contains acc k = false) →
      keys.length ≤ vals.length →
      dictFromKeysVals keys vals acc = some (acc ++ keys.zip vals) := by
  intro keys
  induction keys with
  | nil => intro vals acc _ _ _; simp [dictFromKeysVals]
  | cons k ks ih =>
    intro vals acc hnd hdisj hlen
    cases vals with
    | nil => simp at hlen
    | cons v vs =>
      have hset : Dict.set acc k v = acc ++ [(k, v)] :=
        Dict.set_eq_append acc k v (hdisj k (by simp))
      have hnd' : ks.Nodup := (List.nodup_cons.mp hnd).2
      have hnotin : k ∉ ks := (List.nodup_cons.mp hnd).1
      have hdisj' : ∀ k' ∈ ks,
          Dict.contains (acc ++ [(k, v)]) k' = false := by
        intro k' hk'
        rw [Dict.contains_append]
        have h1 : Dict.contains acc k' = false := hdisj k' (by simp [hk'])
        have hkk : (k == k') = false := by
          refine beq_eq_false_iff_ne.mpr ?_
          intro hkk
          exact hnotin (hkk ▸ hk')
        have h2 : Dict.contains [(k, v)] k' = false := by
          simp [Dict.contains_cons, Dict.contains_nil, hkk]
        rw [h1, h2]
        rfl
      have hlen' : ks.length ≤ vs.length := by simpa using hlen
      calc dictFromKeysVals (k :: ks) (v :: vs) acc
          = dictFromKeysVals ks vs (Dict.set acc k v) := rfl
        _ = some (Dict.set acc k v ++ ks.zip vs) :=
            hset ▸ ih vs (acc ++ [(k, v)]) hnd' hdisj' hlen'
        _ = some (acc ++ (k :: ks).zip (v :: vs)) := by
            rw [hset, List.append_assoc]
            rfl

/-- C8: when the sampler holds a nonempty flattened log-probability list and
a flattened chain with one row of the fit dimensionality per entry,
`get_bf_params` returns the fit keys (in stored order) zipped with the chain
row at the first index where the log-probability attains its maximum. -/
theorem get_bf_params_spec {T : Type} (s : MCMCState T) (sd : SamplerData)
    (hs : s.sampler = some sd) (hne : sd.flatlnprobability ≠ [])
    (hnd : s.fit_keys.Nodup)
    (hlen : sd.flatchain.length = sd.flatlnprobability.length)
    (hrow : ∀ row ∈ sd.flatchain, row.length = s.fit_keys.length) :
    ∃ m v row,
      argmax sd.flatlnprobability = some m ∧
      sd.flatlnprobability.get? m = some v ∧
      (∀ y ∈ sd.flatlnprobability, y ≤ v) ∧
      (∀ j y, j < m → sd.flatlnprobability.get? j = some y → y < v) ∧
      sd.flatchain.get? m = some row ∧
      get_bf_params s = some (s.fit_keys.zip row) := by
  obtain ⟨x, xs, hxs⟩ : ∃ x xs, sd.flatlnprobability = x :: xs := by
    cases hl : sd.flatlnprobability with
    | nil => exact absurd hl hne
    | cons x xs => exact ⟨x, xs, rfl⟩
  obtain ⟨⟨m, v⟩, hmv⟩ : ∃ p, argmaxVal sd.flatlnprobability = some p := by
    rw [hxs]
    exact argmaxVal_cons_isSome x xs
  have hspec := argmaxVal_spec sd.flatlnprobability m v hmv
  have hm : argmax sd.flatlnprobability = some m := by
    rw [argmax, hmv]
    rfl
  have hmlt : m < sd.flatchain.length := by
    rw [hlen]
    exact get?_some_lt sd.flatlnprobability m v hspec.1
  obtain ⟨row, hrowm⟩ := lt_get?_some sd.flatchain m hmlt
  have hrlen : s.fit_keys.length ≤ row.length := by
    rw [hrow row (get?_some_mem sd.flatchain m row hrowm)]
  have hdict : dictFromKeysVals s.fit_keys row []
      = some (s.fit_keys.zip row) := by
    have := dictFromKeysVals_zip s.fit_keys row [] hnd
      (fun k _ => Dict.contains_nil k) hrlen
    simpa using this
  have hrowm2 : sd.flatchain[m]? = some row := by simpa using hrowm
  refine ⟨m, v, row, hm, hspec.1, hspec.2.1, hspec.2.2, hrowm, ?_⟩
  simp [get_bf_params, hs, hm, hrowm2, hdict]

/-- C8 (witness): with log-probabilities `[1, 3, 2]` (maximum at index 1)
and chain rows `[[10,11],[20,21],[30,31]]`, the best-fit mapping pairs the
fit keys with the row `[20, 21]`. -/
theorem get_bf_params_spec_witness :
    (∃ m v row,
      argmax ([1, 3, 2] : List ℚ) = some m ∧
      ([1, 3, 2] : List ℚ).get? m = some v ∧
      (∀ y ∈ ([1, 3, 2] : List ℚ), y ≤ v) ∧
      (∀ j y, j < m → ([1, 3, 2] : List ℚ).get? j = some y → y < v) ∧
      ([[10, 11], [20, 21], [30, 31]] : List (List ℚ)).get? m = some row ∧
      get_bf_params sBF = some (sBF.fit_keys.zip row)) ∧
    get_bf_params sBF = some [("a", 20), ("b", 21)] :=
  ⟨get_bf_params_spec sBF
      { flatlnprobability := [1, 3, 2]
        flatchain := [[10, 11], [20, 21], [30, 31]] }
      rfl (by decide) (by decide) (by decide) (by decide),
    by decide⟩

end CosmoMCMC
